import Mathlib

/-!
Shallow embedding of the proof-of-stake kernel (src/kernel.cpp) and the
block assembler (src/miner.cpp) of the Jenova7/bitcoin repository.

Modelling conventions:
* 256-bit `arith_uint256` values are natural numbers; its arithmetic wraps
  modulo `2 ^ 256`, which the embedding makes explicit.
* `unsigned int` timestamps are natural numbers; `int64_t` quantities that
  may mix with signed arithmetic (heights, minimum ages and depths) are
  integers, and C++ signed division is `Int.tdiv` (truncation toward zero).
* The hash primitives (double-SHA256 etc.) are assumed available as pure
  functions, exactly as the specification states; they enter the embedding
  as explicit function parameters.
* The decoding of a compact difficulty (`arith_uint256::SetCompact`, which
  lives outside the three source files) is represented by its outputs: the
  decoded target and the negative/overflow flags, passed as inputs.
* The in-memory block index is a list of entries, head first; the
  predecessor of the head is the tail.  `LookupBlockIndex` is a lookup in
  such a list.
-/

/-- Modulus of the 256-bit unsigned arithmetic type `arith_uint256`. -/
def u256Mod : Nat := 2 ^ 256

/-- Stake weight of a coin, from `stakeTargetHit` (kernel.cpp):
`fNewWeight ? arith_uint256(nValueIn) : (arith_uint256(nValueIn) / 100)`. -/
def coinDayWeight (nValueIn : Nat) (fNewWeight : Bool) : Nat :=
  if fNewWeight then nValueIn else nValueIn / 100

/-- Translation of `stakeTargetHit` (kernel.cpp): the proof hash, read as a
256-bit integer, is compared against weight times target, where the
`arith_uint256` product wraps modulo `2 ^ 256`. -/
def stakeTargetHit (hashProofOfStake nValueIn bnTargetPerCoinDay : Nat)
    (fNewWeight : Bool) : Bool :=
  decide (hashProofOfStake ≤
    (coinDayWeight nValueIn fNewWeight * bnTargetPerCoinDay) % u256Mod)

/-- Type of the stake-hash primitive: arguments are the stake modifier, the
time of the block holding the staked output, the prevout index, the prevout
hash and the candidate transaction time (the serialization order used by
`stakeHash` in kernel.cpp); the result is the hash as a 256-bit integer. -/
abbrev StakeHashFn := Nat → Nat → Nat → Nat → Nat → Nat

/-- Inputs of `CheckStakeKernelHash` (kernel.cpp) other than the candidate
time, the drift and the hash primitive.  `target`, `fNegative` and
`fOverflow` are the outputs of `SetCompact` on `nBits`; `modifierOpt` is the
result of `GetKernelStakeModifier`; `genesisBypass` is the test
`params.hashGenesisBlock == uint256S("0xf4bb...ccf")`. -/
structure KernelArgs where
  heightCurrent : Int
  upgrade0 : Int
  upgrade1 : Int
  stakeMinAge0 : Int
  stakeMinAge1 : Int
  stakeMinDepth0 : Int
  stakeMinDepth1 : Int
  powLimitPos : Nat
  stakeTimestampMask : Nat
  timeBlockFrom : Nat
  heightBlockFrom : Int
  valueIn : Nat
  fNegative : Bool
  fOverflow : Bool
  target : Nat
  modifierOpt : Option Nat
  genesisBypass : Bool
deriving Repr, DecidableEq

/-- Era-selected minimum stake age (kernel.cpp line 455): switched at
`nMandatoryUpgradeBlock[1]`. -/
def kernelStakeMinAge (a : KernelArgs) : Int :=
  if a.heightCurrent ≥ a.upgrade1 then a.stakeMinAge1 else a.stakeMinAge0

/-- Era-selected minimum stake depth (kernel.cpp line 456): switched at
`nMandatoryUpgradeBlock[0]`, not at `nMandatoryUpgradeBlock[1]`. -/
def kernelStakeMinDepth (a : KernelArgs) : Int :=
  if a.heightCurrent ≥ a.upgrade0 then a.stakeMinDepth1 else a.stakeMinDepth0

/-- New-weight flag used by both the target tests of `CheckStakeKernelHash`:
the current height has reached `nMandatoryUpgradeBlock[1]`. -/
def kernelNewWeight (a : KernelArgs) : Bool :=
  decide (a.heightCurrent ≥ a.upgrade1)

/-- First rejection of `CheckStakeKernelHash`: `nTimeTx < nTimeBlockFrom`. -/
def timeViolation (a : KernelArgs) (nTimeTx : Nat) : Bool :=
  decide (nTimeTx < a.timeBlockFrom)

/-- Second rejection of `CheckStakeKernelHash`:
`nTimeBlockFrom + nStakeMinAge > nTimeTx || nHeightCurrent - nHeightBlockFrom < nStakeMinDepth`
(the comparisons are carried out in `int64_t`). -/
def minAgeViolation (a : KernelArgs) (nTimeTx : Nat) : Bool :=
  decide ((a.timeBlockFrom : Int) + kernelStakeMinAge a > (nTimeTx : Int)) ||
  decide (a.heightCurrent - a.heightBlockFrom < kernelStakeMinDepth a)

/-- Target range rejection of `CheckStakeKernelHash`:
`fNegative || bnTargetPerCoinDay == 0 || fOverflow || bnTargetPerCoinDay > powLimit[0]`. -/
def targetRangeBad (a : KernelArgs) : Bool :=
  a.fNegative || decide (a.target = 0) || a.fOverflow ||
  decide (a.target > a.powLimitPos)

/-- Verify mode (`fCheck = true`) of `CheckStakeKernelHash`.  `none` encodes
the early `return false` paths in which no proof hash is produced; on the
main path the result carries the boolean outcome together with the computed
proof hash (the `hashProofOfStake` out-parameter).  The final disjunct is
the historic mainnet bypass. -/
def checkStakeKernelHashVerify (H : StakeHashFn) (prevoutN prevoutHash : Nat)
    (a : KernelArgs) (nTimeTx : Nat) : Option (Bool × Nat) :=
  if timeViolation a nTimeTx then none
  else if minAgeViolation a nTimeTx then none
  else if targetRangeBad a then none
  else match a.modifierOpt with
    | none => none
    | some nStakeModifier =>
      some (stakeTargetHit
              (H nStakeModifier a.timeBlockFrom prevoutN prevoutHash nTimeTx)
              a.valueIn a.target (kernelNewWeight a) ||
            (decide (a.heightCurrent < a.upgrade0) && a.genesisBypass),
            H nStakeModifier a.timeBlockFrom prevoutN prevoutHash nTimeTx)

/-- Hit test used inside the search loop of `CheckStakeKernelHash` at a
candidate time `u`. -/
def kernelHit (H : StakeHashFn) (prevoutN prevoutHash : Nat) (a : KernelArgs)
    (nStakeModifier u : Nat) : Bool :=
  stakeTargetHit (H nStakeModifier a.timeBlockFrom prevoutN prevoutHash u)
    a.valueIn a.target (kernelNewWeight a)

/-- Search loop of `CheckStakeKernelHash` (`for (int i = nHashDrift; i >= 0;
i -= iteration)`).  `i` is the current offset, `stepPred + 1` the loop step
`iteration`, `k` counts iterations, and `heightOk k` is the per-iteration
observation `::ChainActive().Height() == nHeightStart`.  The `fuel`
argument only bounds the recursion depth; one offset step consumes at least
one unit, so `fuel = i + 1` always suffices. -/
def searchLoopFuel (hit : Nat → Bool) (heightOk : Nat → Bool)
    (nTimeTx stepPred : Nat) : Nat → Nat → Nat → Option Nat
  | 0, _, _ => none
  | fuel + 1, i, k =>
    if heightOk k = false then none
    else if hit (nTimeTx + i) then some (nTimeTx + i)
    else if i < stepPred + 1 then none
    else searchLoopFuel hit heightOk nTimeTx stepPred fuel (i - (stepPred + 1)) (k + 1)

/-- Search loop entered with offset `nHashDrift` and iteration counter 0. -/
def searchLoop (hit : Nat → Bool) (heightOk : Nat → Bool)
    (nTimeTx stepPred nHashDrift : Nat) : Option Nat :=
  searchLoopFuel hit heightOk nTimeTx stepPred (nHashDrift + 1) nHashDrift 0

/-- Search mode (`fCheck = false`) of `CheckStakeKernelHash`.  The shared
preamble (time, age/depth and target-range gates, modifier resolution) is
identical to verify mode; the `nHashDrift & nStakeTimestampMask == 0`
guard models the `assert` before the loop; `iteration` is
`nStakeTimestampMask + 1` from `nMandatoryUpgradeBlock[1]` on and 1 before.
`some t` means success with the in/out timestamp set to `t`; `none` means
failure with the timestamp left unmodified. -/
def checkStakeKernelHashSearch (H : StakeHashFn) (prevoutN prevoutHash : Nat)
    (a : KernelArgs) (nTimeTx nHashDrift : Nat) (heightOk : Nat → Bool) :
    Option Nat :=
  if timeViolation a nTimeTx then none
  else if minAgeViolation a nTimeTx then none
  else if targetRangeBad a then none
  else match a.modifierOpt with
    | none => none
    | some nStakeModifier =>
      if nHashDrift &&& a.stakeTimestampMask ≠ 0 then none
      else
        searchLoop (kernelHit H prevoutN prevoutHash a nStakeModifier)
          heightOk nTimeTx
          (if a.heightCurrent ≥ a.upgrade1 then a.stakeTimestampMask else 0)
          nHashDrift

/-- Claimed age/depth rejection with both eras switched at
`mandatory_upgrade_block[1]`; stated by claim C2, to be compared with
`minAgeViolation`, whose depth era is switched at `mandatory_upgrade_block[0]`. -/
def claimedMinAgeViolation (a : KernelArgs) (nTimeTx : Nat) : Bool :=
  decide ((a.timeBlockFrom : Int) +
      (if a.heightCurrent ≥ a.upgrade1 then a.stakeMinAge1 else a.stakeMinAge0) >
      (nTimeTx : Int)) ||
  decide (a.heightCurrent - a.heightBlockFrom <
      (if a.heightCurrent ≥ a.upgrade1 then a.stakeMinDepth1 else a.stakeMinDepth0))

/-- Entry of the in-memory block index, as used by the stake modifier
engine: height, block time, block hash (as a 256-bit integer), the cached
stake modifier with its generated flag, the cached entropy bit and the
proof-of-stake flag. -/
structure BIdx where
  height : Nat
  time : Nat
  hashVal : Nat
  modifier : Nat
  generated : Bool
  entropy : Nat
  isPoS : Bool
deriving Repr, DecidableEq

/-- Translation of `LookupBlockIndex` restricted to a list-shaped index. -/
def lookupIdx (idx : List BIdx) (h : Nat) : Option BIdx :=
  idx.find? (fun b => b.hashVal == h)

/-- Fixed height-1 / regtest stake modifier 0x7374616b656d6f64 ("stakemod"). -/
def stakeModSentinel : Nat := 0x7374616b656d6f64

/-- Translation of `GetLastStakeModifier`: walk back (`pprev` is the list
tail) while a predecessor exists and the entry did not generate a modifier;
fail if the walk ends on a non-generating entry. -/
def getLastStakeModifier : List BIdx → Option (Nat × Nat)
  | [] => none
  | [b] => if b.generated then some (b.modifier, b.time) else none
  | b :: b2 :: rest =>
    if b.generated then some (b.modifier, b.time)
    else getLastStakeModifier (b2 :: rest)

/-- Translation of `GetStakeModifierSelectionIntervalSection`:
`nModifierInterval * 63 / (63 + ((63 - nSection) * (MODIFIER_INTERVAL_RATIO - 1)))`.
`M` is `nModifierInterval` and `rat` the (positive) interval-ratio constant. -/
def selSection (M rat s : Nat) : Nat :=
  M * 63 / (63 + (63 - s) * (rat - 1))

/-- Translation of `GetStakeModifierSelectionInterval`: the sum of the 64
selection-interval sections. -/
def selInterval (M rat : Nat) : Nat :=
  ((List.range 64).map (selSection M rat)).sum

/-- Start of the candidate window:
`(pindexPrev->GetBlockTime() / nModifierInterval) * nModifierInterval - nSelectionInterval`
(an `int64_t`, possibly negative). -/
def selStart (M rat prevTime : Nat) : Int :=
  ((prevTime / M) * M : Nat) - (selInterval M rat : Nat)

/-- Candidate gathering of `ComputeNextStakeModifier`: walk back from
`pindexPrev` while the block time is at least the window start, collecting
`(time, hash)` pairs. -/
def gatherCands : List BIdx → Int → List (Nat × Nat)
  | [], _ => []
  | b :: rest, start =>
    if (b.time : Int) ≥ start then (b.time, b.hashVal) :: gatherCands rest start
    else []

/-- Order produced by the candidate sort of `ComputeNextStakeModifier`:
time ascending, ties broken by the block hash ascending (the C++ comparator
walks the 32-bit limbs from the most significant down, which is the numeric
order of the 256-bit value). -/
def candLE (a b : Nat × Nat) : Prop :=
  a.1 < b.1 ∨ (a.1 = b.1 ∧ a.2 ≤ b.2)

instance : DecidableRel candLE := fun a b => by
  unfold candLE; exact inferInstance

instance : IsTotal (Nat × Nat) candLE :=
  ⟨by intro a b; unfold candLE; omega⟩

instance : IsTrans (Nat × Nat) candLE :=
  ⟨by intro a b c hab hbc; unfold candLE at *; omega⟩

instance : IsAntisymm (Nat × Nat) candLE :=
  ⟨by
    intro a b hab hba
    obtain ⟨a1, a2⟩ := a
    obtain ⟨b1, b2⟩ := b
    unfold candLE at *
    simp only [Prod.mk.injEq]
    omega⟩

/-- Deterministic sort of the candidate vector.  `std::sort` with the
(strict, total on the `(time, hash)` keys) comparator yields the unique
sorted permutation, which insertion sort also produces. -/
def sortCands (l : List (Nat × Nat)) : List (Nat × Nat) :=
  l.insertionSort candLE

/-- Selection hash of a candidate block (`SelectBlockFromCandidates`):
`Hash(hashProof ‖ nStakeModifierPrev)` as a 256-bit integer, shifted right
by 32 bits for proof-of-stake blocks.  `selHash` is the hash primitive. -/
def selHashOf (selHash : Nat → Nat → Nat) (prevMod : Nat) (b : BIdx) : Nat :=
  if b.isPoS then selHash b.hashVal prevMod >>> 32 else selHash b.hashVal prevMod

/-- Loop of `SelectBlockFromCandidates`.  `acc` holds the current best
candidate and its selection hash (`fSelected`, `*pindexSelected`,
`hashBest`); a failed index lookup aborts with `none`; the loop breaks at
the first candidate beyond `stop` once something is selected; already
selected blocks are skipped; a strictly smaller selection hash replaces the
best. -/
def selectBlockLoop (idx : List BIdx) (selHash : Nat → Nat → Nat)
    (prevMod : Nat) (stop : Int) (selected : List Nat) :
    List (Nat × Nat) → Option (BIdx × Nat) → Option BIdx
  | [], acc => acc.map Prod.fst
  | item :: rest, acc =>
    match lookupIdx idx item.2 with
    | none => none
    | some pindex =>
      if acc.isSome && decide ((pindex.time : Int) > stop) then acc.map Prod.fst
      else if selected.contains pindex.hashVal then
        selectBlockLoop idx selHash prevMod stop selected rest acc
      else
        match acc with
        | none =>
          selectBlockLoop idx selHash prevMod stop selected rest
            (some (pindex, selHashOf selHash prevMod pindex))
        | some (bb, bh) =>
          if selHashOf selHash prevMod pindex < bh then
            selectBlockLoop idx selHash prevMod stop selected rest
              (some (pindex, selHashOf selHash prevMod pindex))
          else
            selectBlockLoop idx selHash prevMod stop selected rest (some (bb, bh))

/-- Translation of `SelectBlockFromCandidates`: run the loop with nothing
selected yet; `none` encodes the `return false` outcomes (lookup failure or
no candidate taken). -/
def selectBlockFromCandidates (idx : List BIdx) (selHash : Nat → Nat → Nat)
    (sorted : List (Nat × Nat)) (selected : List Nat) (stop : Int)
    (prevMod : Nat) : Option BIdx :=
  selectBlockLoop idx selHash prevMod stop selected sorted none

/-- Selection rounds of `ComputeNextStakeModifier`: for each round extend
the stop by the round's section, select a block, and write its entropy bit
into bit `nRound` of the new modifier.  `count` is the number of rounds
still to run (`min 64 (size of the candidate vector)` at the start). -/
def roundsGo (idx : List BIdx) (selHash : Nat → Nat → Nat) (M rat : Nat)
    (prevMod : Nat) (sorted : List (Nat × Nat)) :
    Nat → Nat → Int → List Nat → Nat → Option Nat
  | 0, _, _, _, acc => some acc
  | count + 1, nRound, stop, selected, acc =>
    match selectBlockFromCandidates idx selHash sorted selected
        (stop + (selSection M rat nRound : Nat)) prevMod with
    | none => none
    | some b =>
      roundsGo idx selHash M rat prevMod sorted count (nRound + 1)
        (stop + (selSection M rat nRound : Nat))
        (b.hashVal :: selected) (acc ||| (b.entropy <<< nRound))

/-- Fresh-generation phase of `ComputeNextStakeModifier`: run the selection
rounds over the sorted candidate vector and return the new modifier with
`fGeneratedStakeModifier = true` (or `none` if a round failed). -/
def generatePhase (idx : List BIdx) (selHash : Nat → Nat → Nat) (M rat : Nat)
    (nStakeModifier : Nat) (start : Int) (sorted : List (Nat × Nat)) :
    Option (Nat × Bool) :=
  match roundsGo idx selHash M rat nStakeModifier sorted
      (min 64 sorted.length) 0 start [] 0 with
  | none => none
  | some m => some (m, true)

/-- Main path of `ComputeNextStakeModifier` past the genesis and sentinel
special cases: fetch the last generated modifier, inherit it when its time
falls in the predecessor's modifier interval, otherwise generate a fresh
modifier from the sorted candidate vector `sorted` (built by the caller by
gathering, shuffling and sorting). -/
def modifierFromLast (idx : List BIdx) (selHash : Nat → Nat → Nat)
    (M rat : Nat) (prev : BIdx) (rest : List BIdx)
    (sorted : List (Nat × Nat)) : Option (Nat × Bool) :=
  match getLastStakeModifier (prev :: rest) with
  | none => none
  | some (nStakeModifier, nModifierTime) =>
    if nModifierTime / M ≥ prev.time / M then some (nStakeModifier, false)
    else
      generatePhase idx selHash M rat nStakeModifier (selStart M rat prev.time)
        sorted

/-- Translation of `ComputeNextStakeModifier` (kernel.cpp), parametrized by
the global index `idx`, the regtest flag, the consensus constants `M`
(`nModifierInterval`) and `rat` (`MODIFIER_INTERVAL_RATIO`), the selection
hash primitive, the pre-sort shuffle, and the predecessor chain (`[]` means
`pindexPrev` is null; otherwise the head is `pindexPrev`).  The result is
`(nStakeModifier, fGeneratedStakeModifier)`, or `none` on the error paths. -/
def computeNextStakeModifierCore (idx : List BIdx) (regtest : Bool)
    (M rat : Nat) (selHash : Nat → Nat → Nat)
    (shuffle : List (Nat × Nat) → List (Nat × Nat)) :
    List BIdx → Option (Nat × Bool)
  | [] => some (0, true)
  | prev :: rest =>
    if prev.height = 0 || regtest then some (stakeModSentinel, true)
    else
      modifierFromLast idx selHash M rat prev rest
        (sortCands (shuffle (gatherCands (prev :: rest)
          (selStart M rat prev.time))))

/-- `ComputeNextStakeModifier` with the semantically inert shuffle dropped
(the identity shuffle). -/
def computeNextStakeModifier (idx : List BIdx) (regtest : Bool) (M rat : Nat)
    (selHash : Nat → Nat → Nat) (chain : List BIdx) : Option (Nat × Bool) :=
  computeNextStakeModifierCore idx regtest M rat selHash id chain

/-- Variant of the next-modifier computation following claim C3's words:
on a network other than regtest the height-1 block is not given the
sentinel but falls through to the normal inherit/generate rules (the
sentinel branch fires only on regtest).  To be compared with
`computeNextStakeModifier`, whose sentinel branch also fires whenever the
predecessor has height 0. -/
def computeNextStakeModifierClaimC3 (idx : List BIdx) (regtest : Bool)
    (M rat : Nat) (selHash : Nat → Nat → Nat) :
    List BIdx → Option (Nat × Bool)
  | [] => some (0, true)
  | prev :: rest =>
    if regtest then some (stakeModSentinel, true)
    else
      modifierFromLast idx selHash M rat prev rest
        (sortCands (gatherCands (prev :: rest) (selStart M rat prev.time)))

/-- Transaction output as used by the treasury code: an amount (`CAmount`,
an `int64_t`) and a script, the latter opaque here. -/
structure CTxOut where
  nValue : Int
  scriptPubKey : Nat
deriving Repr, DecidableEq

/-- Translation of `FillTreasuryPayee` (miner.cpp): when the treasury
payment for the height is positive, append one output per configured payee
`(script, pct)` of value `nTreasuryPayment * pct / 100` (C++ `int64_t`
division, i.e. truncation toward zero). -/
def fillTreasuryPayee (nTreasuryPayment : Int) (payees : List (Nat × Int))
    (txouts : List CTxOut) : List CTxOut :=
  if nTreasuryPayment > 0 then
    txouts ++ payees.map (fun p => ⟨Int.tdiv (nTreasuryPayment * p.2) 100, p.1⟩)
  else txouts

/-- Sum of the amounts of a list of outputs. -/
def sumValues (l : List CTxOut) : Int :=
  (l.map CTxOut.nValue).sum

/-- Modelled from the spec: the constant `MAX_BLOCK_WEIGHT` lives in
`consensus/consensus.h`, outside the three source files; the specification's
configuration section gives the block weight limit as 4 000 000 (the
default of `-blockmaxweight`). -/
def MAX_BLOCK_WEIGHT : Nat := 4000000

/-- Translation of the clamp in the `BlockAssembler` constructor
(miner.cpp): `std::max<size_t>(4000, std::min<size_t>(MAX_BLOCK_WEIGHT - 4000,
options.nBlockMaxWeight))`. -/
def blockAssemblerMaxWeight (optBlockMaxWeight : Nat) : Nat :=
  max 4000 (min (MAX_BLOCK_WEIGHT - 4000) optBlockMaxWeight)

section Helpers

lemma tdiv_hundred_add (x y : Int) (hx : (100 : Int) ∣ x) (hy : (100 : Int) ∣ y) :
    Int.tdiv (x + y) 100 = Int.tdiv x 100 + Int.tdiv y 100 := by
  obtain ⟨a, ha⟩ := hx
  obtain ⟨b, hb⟩ := hy
  subst ha hb
  rw [← mul_add, Int.mul_tdiv_cancel_left _ (by norm_num),
    Int.mul_tdiv_cancel_left _ (by norm_num),
    Int.mul_tdiv_cancel_left _ (by norm_num)]

lemma sum_tdiv_eq (T : Int) :
    ∀ payees : List (Nat × Int), (∀ p ∈ payees, (100 : Int) ∣ T * p.2) →
      (payees.map (fun p => Int.tdiv (T * p.2) 100)).sum =
        Int.tdiv (T * (payees.map Prod.snd).sum) 100 ∧
      (100 : Int) ∣ T * (payees.map Prod.snd).sum := by
  intro payees
  induction payees with
  | nil => intro _; simp
  | cons p ps ih =>
    intro hdvd
    obtain ⟨ih1, ih2⟩ := ih (fun q hq => hdvd q (List.mem_cons_of_mem p hq))
    have hp : (100 : Int) ∣ T * p.2 := hdvd p (List.mem_cons_self p ps)
    constructor
    · simp only [List.map_cons, List.sum_cons, ih1, mul_add]
      rw [tdiv_hundred_add _ _ hp ih2]
    · simp only [List.map_cons, List.sum_cons, mul_add]
      exact dvd_add hp ih2

end Helpers

/-- C10: the `BlockAssembler` constructor clamps the configured
`-blockmaxweight` into the closed range `[4000, MAX_BLOCK_WEIGHT - 4000]`:
values below 4000 are raised to 4000, values above the upper bound are
lowered to it, and in-range values are kept. -/
theorem c10_blockmaxweight_clamp (w : Nat) :
    4000 ≤ blockAssemblerMaxWeight w ∧
    blockAssemblerMaxWeight w ≤ MAX_BLOCK_WEIGHT - 4000 ∧
    (w < 4000 → blockAssemblerMaxWeight w = 4000) ∧
    (MAX_BLOCK_WEIGHT - 4000 < w →
      blockAssemblerMaxWeight w = MAX_BLOCK_WEIGHT - 4000) ∧
    (4000 ≤ w → w ≤ MAX_BLOCK_WEIGHT - 4000 → blockAssemblerMaxWeight w = w) := by
  unfold blockAssemblerMaxWeight MAX_BLOCK_WEIGHT
  omega

/-- Witness for C10 at the three representative inputs. -/
theorem c10_blockmaxweight_clamp_witness :
    blockAssemblerMaxWeight 3000 = 4000 ∧
    blockAssemblerMaxWeight 5000000 = 3996000 ∧
    blockAssemblerMaxWeight 2000000 = 2000000 :=
  ⟨(c10_blockmaxweight_clamp 3000).2.2.1 (by decide),
   (c10_blockmaxweight_clamp 5000000).2.2.2.1 (by decide),
   (c10_blockmaxweight_clamp 2000000).2.2.2.2 (by decide) (by decide)⟩

/-- C8, counterexample: with a positive treasury payment of 155 and two
payees at 10 percent each, the appended outputs are 15 and 15 (per-payee
truncating division), summing to 30, while `treasury * (sum of pcts) / 100`
is 31; the claimed sum identity fails. -/
theorem c8_treasury_sum_counterexample :
    fillTreasuryPayee 155 [(1, 10), (2, 10)] [] = [⟨15, 1⟩, ⟨15, 2⟩] ∧
    sumValues (fillTreasuryPayee 155 [(1, 10), (2, 10)] []) = 30 ∧
    Int.tdiv (155 * (10 + 10)) 100 = 31 ∧
    (30 : Int) ≠ 31 :=
  ⟨by decide, by decide, by decide, by decide⟩

/-- C8, amended: for a positive treasury payment the assembler appends, per
configured payee `(script, pct)`, exactly one output of value
`treasury * pct / 100` (truncating division applied per payee); the sum of
the appended outputs is the sum of those per-payee values, and it equals
`treasury * (sum of pcts) / 100` whenever each per-payee product
`treasury * pct` is divisible by 100 (in particular for the shipped
single-payee configuration at 100 percent). -/
theorem c8_treasury_outputs (T : Int) (payees : List (Nat × Int))
    (txouts : List CTxOut) (hT : 0 < T) :
    fillTreasuryPayee T payees txouts =
      txouts ++ payees.map (fun p => ⟨Int.tdiv (T * p.2) 100, p.1⟩) ∧
    sumValues (fillTreasuryPayee T payees txouts) =
      sumValues txouts + (payees.map (fun p => Int.tdiv (T * p.2) 100)).sum ∧
    ((∀ p ∈ payees, (100 : Int) ∣ T * p.2) →
      (payees.map (fun p => Int.tdiv (T * p.2) 100)).sum =
        Int.tdiv (T * (payees.map Prod.snd).sum) 100) := by
  refine ⟨?_, ?_, ?_⟩
  · unfold fillTreasuryPayee
    simp [hT]
  · unfold fillTreasuryPayee sumValues
    simp only [if_pos hT, List.map_append, List.sum_append, List.map_map]
    rfl
  · intro hdvd
    exact (sum_tdiv_eq T payees hdvd).1

/-- Witness for C8 at the specification's treasury-split scenario S5:
payment 1000 with payees at 25, 25 and 50 percent. -/
theorem c8_treasury_outputs_witness :
    fillTreasuryPayee 1000 [(1, 25), (2, 25), (3, 50)] [] =
      [] ++ ([(1, 25), (2, 25), (3, 50)] : List (Nat × Int)).map
        (fun p => ⟨Int.tdiv (1000 * p.2) 100, p.1⟩) ∧
    (([(1, 25), (2, 25), (3, 50)] : List (Nat × Int)).map
        (fun p => Int.tdiv (1000 * p.2) 100)).sum =
      Int.tdiv (1000 * (([(1, 25), (2, 25), (3, 50)] : List (Nat × Int)).map
        Prod.snd).sum) 100 :=
  have h := c8_treasury_outputs 1000 [(1, 25), (2, 25), (3, 50)] [] (by decide)
  ⟨h.1, h.2.2 (by decide)⟩

/-- C3, counterexample: on a non-regtest network the block after genesis
receives the fixed sentinel with `generated = true`, while the claim's
normal interval rules would inherit the genesis modifier (0) with
`generated = false`; the two disagree. -/
theorem c3_sentinel_counterexample :
    computeNextStakeModifier [⟨0, 0, 1, 0, true, 0, false⟩] false 60 3
        (fun _ _ => 0) [⟨0, 0, 1, 0, true, 0, false⟩] =
      some (stakeModSentinel, true) ∧
    computeNextStakeModifierClaimC3 [⟨0, 0, 1, 0, true, 0, false⟩] false 60 3
        (fun _ _ => 0) [⟨0, 0, 1, 0, true, 0, false⟩] = some (0, false) ∧
    stakeModSentinel ≠ 0 :=
  ⟨by decide, by decide, by decide⟩

/-- C3, amended: the genesis block (null predecessor) gets modifier 0 with
`generated = true`; the sentinel `0x7374616b656d6f64` with
`generated = true` is produced whenever the predecessor has height 0 (on
every network, not only regtest) or the network is regtest (at every
height); in all remaining cases the computation follows the normal
inherit/generate rules. -/
theorem c3_genesis_and_sentinel (idx : List BIdx) (regtest : Bool)
    (M rat : Nat) (selHash : Nat → Nat → Nat) :
    computeNextStakeModifier idx regtest M rat selHash [] = some (0, true) ∧
    (∀ (prev : BIdx) (rest : List BIdx),
      prev.height = 0 ∨ regtest = true →
      computeNextStakeModifier idx regtest M rat selHash (prev :: rest) =
        some (stakeModSentinel, true)) ∧
    (∀ (prev : BIdx) (rest : List BIdx),
      prev.height ≠ 0 → regtest = false →
      computeNextStakeModifier idx regtest M rat selHash (prev :: rest) =
        computeNextStakeModifierClaimC3 idx regtest M rat selHash (prev :: rest)) := by
  refine ⟨rfl, ?_, ?_⟩
  · intro prev rest h
    have hcond : (decide (prev.height = 0) || regtest) = true := by
      rcases h with h | h <;> simp [h]
    unfold computeNextStakeModifier
    rw [computeNextStakeModifierCore, hcond]
    rfl
  · intro prev rest h hreg
    subst hreg
    have hcond : (decide (prev.height = 0) || false) = false := by simp [h]
    unfold computeNextStakeModifier
    rw [computeNextStakeModifierCore, computeNextStakeModifierClaimC3, hcond]
    rw [if_neg (by decide : ¬((false : Bool) = true)),
      if_neg (by decide : ¬((false : Bool) = true)), id_eq]

/-- Witness for C3 at a concrete height-0 predecessor on mainnet. -/
theorem c3_genesis_and_sentinel_witness :
    computeNextStakeModifier [] false 60 3 (fun _ _ => 0)
        [⟨0, 5, 1, 0, true, 0, false⟩] = some (stakeModSentinel, true) :=
  (c3_genesis_and_sentinel [] false 60 3 (fun _ _ => 0)).2.1
    ⟨0, 5, 1, 0, true, 0, false⟩ [] (Or.inl rfl)

/-- C4: beyond the genesis/height-1/regtest special cases, a successful
next-modifier computation either inherits the last generated modifier with
`generated = false`, exactly when the last modifier time and the
predecessor's block time fall in the same modifier interval, or produces
the freshly computed selection-round modifier with `generated = true`; no
other outcome occurs on success. -/
theorem c4_inherit_or_generate (idx : List BIdx) (M rat : Nat)
    (selHash : Nat → Nat → Nat) (prev : BIdx) (rest : List BIdx)
    (m : Nat) (g : Bool) (hh : prev.height ≠ 0)
    (hres : computeNextStakeModifier idx false M rat selHash (prev :: rest) =
      some (m, g)) :
    ∃ lm lt, getLastStakeModifier (prev :: rest) = some (lm, lt) ∧
      ((lt / M ≥ prev.time / M ∧ m = lm ∧ g = false) ∨
       (lt / M < prev.time / M ∧ g = true ∧
         roundsGo idx selHash M rat lm
           (sortCands (gatherCands (prev :: rest) (selStart M rat prev.time)))
           (min 64 (sortCands (gatherCands (prev :: rest)
             (selStart M rat prev.time))).length)
           0 (selStart M rat prev.time) [] 0 = some m)) := by
  have hml : modifierFromLast idx selHash M rat prev rest
      (sortCands (gatherCands (prev :: rest) (selStart M rat prev.time))) =
      some (m, g) := by
    have hcond : (decide (prev.height = 0) || false) = false := by simp [hh]
    unfold computeNextStakeModifier at hres
    rw [computeNextStakeModifierCore, hcond,
      if_neg (by decide : ¬((false : Bool) = true)), id_eq] at hres
    exact hres
  unfold modifierFromLast at hml
  split at hml
  · exact absurd hml (by simp)
  · rename_i lm lt heq
    refine ⟨lm, lt, heq, ?_⟩
    split at hml
    · rename_i hint
      left
      injection hml with hml
      injection hml with h1 h2
      exact ⟨hint, h1.symm, h2.symm⟩
    · rename_i hint
      right
      unfold generatePhase at hml
      split at hml
      · exact absurd hml (by simp)
      · rename_i m' hround
        injection hml with hml
        injection hml with h1 h2
        refine ⟨by omega, h2.symm, ?_⟩
        rw [← h1]
        exact hround

/-- Witness for C4 on a two-block chain in the inherit case. -/
theorem c4_inherit_or_generate_witness :
    ∃ lm lt,
      getLastStakeModifier
        [⟨1, 50, 2, 0, false, 0, false⟩, ⟨0, 0, 1, 5, true, 0, false⟩] =
        some (lm, lt) ∧
      ((lt / 60 ≥ 50 / 60 ∧ 5 = lm ∧ false = false) ∨
       (lt / 60 < 50 / 60 ∧ false = true ∧
         roundsGo [] (fun _ _ => 0) 60 3 lm
           (sortCands (gatherCands
             [⟨1, 50, 2, 0, false, 0, false⟩, ⟨0, 0, 1, 5, true, 0, false⟩]
             (selStart 60 3 50)))
           (min 64 (sortCands (gatherCands
             [⟨1, 50, 2, 0, false, 0, false⟩, ⟨0, 0, 1, 5, true, 0, false⟩]
             (selStart 60 3 50))).length)
           0 (selStart 60 3 50) [] 0 = some 5)) := by
  have h := c4_inherit_or_generate [] 60 3 (fun _ _ => 0)
    ⟨1, 50, 2, 0, false, 0, false⟩ [⟨0, 0, 1, 5, true, 0, false⟩] 5 false
    (by decide) (by decide)
  exact h

/-- C9: the stake modifier is independent of the pre-sort shuffle: for any
shuffle that permutes the candidate vector, the computation with the
shuffle equals the computation that omits it and only sorts by
(time ascending, hash ascending), on every input. -/
theorem c9_shuffle_independent (idx : List BIdx) (regtest : Bool)
    (M rat : Nat) (selHash : Nat → Nat → Nat)
    (shuffle : List (Nat × Nat) → List (Nat × Nat)) (chain : List BIdx)
    (hperm : ∀ l, (shuffle l).Perm l) :
    computeNextStakeModifierCore idx regtest M rat selHash shuffle chain =
      computeNextStakeModifier idx regtest M rat selHash chain := by
  have key : ∀ l : List (Nat × Nat), sortCands (shuffle l) = sortCands l := by
    intro l
    unfold sortCands
    refine List.eq_of_perm_of_sorted ?_ (List.sorted_insertionSort candLE _)
      (List.sorted_insertionSort candLE _)
    exact ((List.perm_insertionSort candLE _).trans (hperm l)).trans
      (List.perm_insertionSort candLE l).symm
  cases chain with
  | nil => rfl
  | cons prev rest =>
    show computeNextStakeModifierCore idx regtest M rat selHash shuffle
        (prev :: rest) =
      computeNextStakeModifierCore idx regtest M rat selHash id (prev :: rest)
    have hml : sortCands (shuffle (gatherCands (prev :: rest)
        (selStart M rat prev.time))) =
        sortCands (id (gatherCands (prev :: rest) (selStart M rat prev.time))) := by
      rw [key, id_eq]
    rw [computeNextStakeModifierCore, computeNextStakeModifierCore, hml]

/-- Witness for C9 with a reversing shuffle on a concrete chain. -/
theorem c9_shuffle_independent_witness :
    computeNextStakeModifierCore [] false 60 3 (fun _ _ => 0) List.reverse
        [⟨1, 50, 2, 0, false, 0, false⟩, ⟨0, 0, 1, 5, true, 0, false⟩] =
      computeNextStakeModifier [] false 60 3 (fun _ _ => 0)
        [⟨1, 50, 2, 0, false, 0, false⟩, ⟨0, 0, 1, 5, true, 0, false⟩] :=
  c9_shuffle_independent [] false 60 3 (fun _ _ => 0) List.reverse
    [⟨1, 50, 2, 0, false, 0, false⟩, ⟨0, 0, 1, 5, true, 0, false⟩]
    (fun l => l.reverse_perm)

lemma checkVerify_none_of_reject (H : StakeHashFn) (pn ph : Nat)
    (a : KernelArgs) (t : Nat)
    (hg : timeViolation a t = true ∨ minAgeViolation a t = true ∨
      targetRangeBad a = true) :
    checkStakeKernelHashVerify H pn ph a t = none := by
  unfold checkStakeKernelHashVerify
  cases htv : timeViolation a t
  · rw [if_neg (by simp)]
    cases hmv : minAgeViolation a t
    · rw [if_neg (by simp)]
      cases htr : targetRangeBad a
      · simp [htv, hmv, htr] at hg
      · rw [if_pos rfl]
    · rw [if_pos rfl]
  · rw [if_pos rfl]

lemma checkSearch_none_of_reject (H : StakeHashFn) (pn ph : Nat)
    (a : KernelArgs) (t d : Nat) (hOk : Nat → Bool)
    (hg : timeViolation a t = true ∨ minAgeViolation a t = true ∨
      targetRangeBad a = true) :
    checkStakeKernelHashSearch H pn ph a t d hOk = none := by
  unfold checkStakeKernelHashSearch
  cases htv : timeViolation a t
  · rw [if_neg (by simp)]
    cases hmv : minAgeViolation a t
    · rw [if_neg (by simp)]
      cases htr : targetRangeBad a
      · simp [htv, hmv, htr] at hg
      · rw [if_pos rfl]
    · rw [if_pos rfl]
  · rw [if_pos rfl]

lemma searchLoopFuel_some_spec (hit heightOk : Nat → Bool) (t sp : Nat) :
    ∀ fuel i k r, searchLoopFuel hit heightOk t sp fuel i k = some r →
      hit r = true ∧ t ≤ r := by
  intro fuel
  induction fuel with
  | zero => intro i k r h; exact absurd h (by simp [searchLoopFuel])
  | succ fuel ih =>
    intro i k r h
    unfold searchLoopFuel at h
    split at h
    · exact absurd h (by simp)
    · split at h
      · rename_i hhit
        injection h with h
        exact ⟨h ▸ hhit, h ▸ Nat.le_add_right t i⟩
      · split at h
        · exact absurd h (by simp)
        · exact ih _ _ _ h

/-- C1, counterexample: the target test is carried out in wrapping 256-bit
arithmetic.  With the regtest PoS pow-limit as target and a staked value of
100 (post-upgrade weight 100), the mathematical product `weight * target`
exceeds `2 ^ 256`, and the hash `2 ^ 256 - 1` is below that product yet the
code's test rejects it, because the `arith_uint256` product wrapped. -/
theorem c1_target_wrap_counterexample :
    stakeTargetHit (2 ^ 256 - 1) 100 (0x7fffff * 2 ^ 232) true = false ∧
    (2 ^ 256 - 1 : Nat) ≤ coinDayWeight 100 true * (0x7fffff * 2 ^ 232) :=
  ⟨by decide, by decide⟩

/-- C1, amended: `CheckStakeKernelHash` (both modes) returns false whenever
the decoded compact target is negative, zero, overflowed or above
`powLimit[POS]`; on the surviving verify path the outcome (absent the
historic mainnet bypass) is true exactly when the proof hash is at most
`weight * target` computed modulo `2 ^ 256`, with weight the raw staked
value from `mandatory_upgrade_block[1]` on and the value divided by 100
before; a search-mode success likewise requires its hash to pass the same
wrapped-product test. -/
theorem c1_target_test (H : StakeHashFn) (pn ph : Nat) (a : KernelArgs)
    (t d : Nat) (hOk : Nat → Bool) :
    ((a.fNegative = true ∨ a.target = 0 ∨ a.fOverflow = true ∨
        a.target > a.powLimitPos) →
      checkStakeKernelHashVerify H pn ph a t = none ∧
      checkStakeKernelHashSearch H pn ph a t d hOk = none) ∧
    (∀ b h, checkStakeKernelHashVerify H pn ph a t = some (b, h) →
      ¬(a.heightCurrent < a.upgrade0 ∧ a.genesisBypass = true) →
      (b = true ↔
        h ≤ ((if a.heightCurrent ≥ a.upgrade1 then a.valueIn
              else a.valueIn / 100) * a.target) % 2 ^ 256)) ∧
    (∀ r m, a.modifierOpt = some m →
      checkStakeKernelHashSearch H pn ph a t d hOk = some r →
      H m a.timeBlockFrom pn ph r ≤
        ((if a.heightCurrent ≥ a.upgrade1 then a.valueIn
          else a.valueIn / 100) * a.target) % 2 ^ 256) := by
  refine ⟨?_, ?_, ?_⟩
  · intro hyp
    have htr : targetRangeBad a = true := by
      unfold targetRangeBad
      rcases hyp with h | h | h | h <;> simp [h]
    exact ⟨checkVerify_none_of_reject H pn ph a t (Or.inr (Or.inr htr)),
      checkSearch_none_of_reject H pn ph a t d hOk (Or.inr (Or.inr htr))⟩
  · intro b h hsome hnb
    have hb : (decide (a.heightCurrent < a.upgrade0) && a.genesisBypass) = false := by
      by_cases hlt : a.heightCurrent < a.upgrade0
      · cases hgb : a.genesisBypass
        · simp
        · exact absurd ⟨hlt, hgb⟩ hnb
      · simp [hlt]
    unfold checkStakeKernelHashVerify at hsome
    split at hsome
    · exact absurd hsome (by simp)
    · split at hsome
      · exact absurd hsome (by simp)
      · split at hsome
        · exact absurd hsome (by simp)
        · split at hsome
          · exact absurd hsome (by simp)
          · rename_i m heq
            injection hsome with hsome
            injection hsome with h1 h2
            rw [hb, Bool.or_false] at h1
            subst h2
            rw [← h1]
            unfold stakeTargetHit coinDayWeight kernelNewWeight u256Mod
            simp only [decide_eq_true_eq]
  · intro r m hmod hsome
    unfold checkStakeKernelHashSearch at hsome
    split at hsome
    · exact absurd hsome (by simp)
    · split at hsome
      · exact absurd hsome (by simp)
      · split at hsome
        · exact absurd hsome (by simp)
        · split at hsome
          · exact absurd hsome (by simp)
          · rename_i m' heq
            rw [hmod] at heq
            injection heq with heq
            subst heq
            split at hsome
            · exact absurd hsome (by simp)
            · have hhit := (searchLoopFuel_some_spec _ hOk t _ _ _ _ _ hsome).1
              unfold kernelHit stakeTargetHit coinDayWeight kernelNewWeight
                u256Mod at hhit
              simp only [decide_eq_true_eq] at hhit
              exact hhit

/-- Witness for C1: a zero decoded target makes verify mode return none. -/
theorem c1_target_test_witness :
    checkStakeKernelHashVerify (fun _ _ _ _ _ => 0) 0 0
      ⟨0, 0, 0, 0, 0, 0, 0, 0, 0, 0, 0, 0, false, false, 0, none, false⟩ 0 =
      none :=
  ((c1_target_test (fun _ _ _ _ _ => 0) 0 0
      ⟨0, 0, 0, 0, 0, 0, 0, 0, 0, 0, 0, 0, false, false, 0, none, false⟩ 0 0
      (fun _ => true)).1 (Or.inr (Or.inl rfl))).1

/-- C2, counterexample: with `mandatory_upgrade_block = (10, 20)`, current
height 15, `stake_min_depth = (0, 5)` and a depth difference of 3, the code
rejects (it selects the era-1 depth because the depth switch tests
`mandatory_upgrade_block[0]`), while the claim's rule (both switches at
`mandatory_upgrade_block[1]`) selects the era-0 depth 0 and predicts
acceptance. -/
theorem c2_gate_counterexample :
    checkStakeKernelHashVerify (fun _ _ _ _ _ => 0) 0 0
      ⟨15, 10, 20, 0, 0, 0, 5, 1, 0, 0, 12, 1, false, false, 1, some 0, false⟩
      0 = none ∧
    timeViolation
      ⟨15, 10, 20, 0, 0, 0, 5, 1, 0, 0, 12, 1, false, false, 1, some 0, false⟩
      0 = false ∧
    claimedMinAgeViolation
      ⟨15, 10, 20, 0, 0, 0, 5, 1, 0, 0, 12, 1, false, false, 1, some 0, false⟩
      0 = false :=
  ⟨by decide, by decide, by decide⟩

/-- C2, amended: `CheckStakeKernelHash` fails its time and age/depth gate
exactly when `time_tx < time_block_from`, or
`time_block_from + stake_min_age > time_tx`, or
`height_cur - height_from < stake_min_depth`, so equality on the age and
depth bounds passes and one less depth fails; `stake_min_age` is taken from
era 1 when the current height has reached `mandatory_upgrade_block[1]`,
while `stake_min_depth` switches already at `mandatory_upgrade_block[0]`;
a gate failure makes both modes return none. -/
theorem c2_age_depth_gate (H : StakeHashFn) (pn ph : Nat) (a : KernelArgs)
    (t : Nat) :
    ((timeViolation a t || minAgeViolation a t) = true ↔
      (t < a.timeBlockFrom ∨
       (a.timeBlockFrom : Int) +
         (if a.heightCurrent ≥ a.upgrade1 then a.stakeMinAge1
          else a.stakeMinAge0) > (t : Int) ∨
       a.heightCurrent - a.heightBlockFrom <
         (if a.heightCurrent ≥ a.upgrade0 then a.stakeMinDepth1
          else a.stakeMinDepth0))) ∧
    ((timeViolation a t || minAgeViolation a t) = true →
      checkStakeKernelHashVerify H pn ph a t = none ∧
      ∀ d hOk, checkStakeKernelHashSearch H pn ph a t d hOk = none) ∧
    (a.heightCurrent - a.heightBlockFrom <
        (if a.heightCurrent ≥ a.upgrade0 then a.stakeMinDepth1
         else a.stakeMinDepth0) →
      minAgeViolation a t = true) ∧
    ((a.timeBlockFrom : Int) +
        (if a.heightCurrent ≥ a.upgrade1 then a.stakeMinAge1
         else a.stakeMinAge0) ≤ (t : Int) →
      a.heightCurrent - a.heightBlockFrom ≥
        (if a.heightCurrent ≥ a.upgrade0 then a.stakeMinDepth1
         else a.stakeMinDepth0) →
      a.timeBlockFrom ≤ t →
      (timeViolation a t || minAgeViolation a t) = false) := by
  refine ⟨?_, ?_, ?_, ?_⟩
  · unfold timeViolation minAgeViolation kernelStakeMinAge kernelStakeMinDepth
    simp only [Bool.or_eq_true, decide_eq_true_eq]
  · intro hg
    rcases Bool.or_eq_true_iff.mp hg with h | h
    · exact ⟨checkVerify_none_of_reject H pn ph a t (Or.inl h),
        fun d hOk => checkSearch_none_of_reject H pn ph a t d hOk (Or.inl h)⟩
    · exact ⟨checkVerify_none_of_reject H pn ph a t (Or.inr (Or.inl h)),
        fun d hOk =>
          checkSearch_none_of_reject H pn ph a t d hOk (Or.inr (Or.inl h))⟩
  · intro hlt
    unfold minAgeViolation kernelStakeMinDepth
    simp only [Bool.or_eq_true, decide_eq_true_eq]
    exact Or.inr hlt
  · intro hage hdepth htbf
    unfold timeViolation minAgeViolation kernelStakeMinAge kernelStakeMinDepth
    simp only [Bool.or_eq_false_iff, decide_eq_false_iff_not, not_lt]
    exact ⟨htbf, hage, hdepth⟩

/-- Witness for C2: a failing depth gate between the two upgrade heights
makes verify mode return none. -/
theorem c2_age_depth_gate_witness :
    checkStakeKernelHashVerify (fun _ _ _ _ _ => 0) 0 0
      ⟨15, 10, 20, 0, 0, 0, 5, 1, 0, 0, 12, 1, false, false, 1, some 0, false⟩
      0 = none :=
  ((c2_age_depth_gate (fun _ _ _ _ _ => 0) 0 0
      ⟨15, 10, 20, 0, 0, 0, 5, 1, 0, 0, 12, 1, false, false, 1, some 0, false⟩
      0).2.1 (by decide)).1

lemma searchLoopFuel_some_iff (hit heightOk : Nat → Bool) (t sp : Nat) :
    ∀ fuel i k0 r, i < fuel →
    (searchLoopFuel hit heightOk t sp fuel i k0 = some r ↔
      ∃ m, m * (sp + 1) ≤ i ∧
        (∀ j, j ≤ m → heightOk (k0 + j) = true) ∧
        (∀ j, j < m → hit (t + (i - j * (sp + 1))) = false) ∧
        hit (t + (i - m * (sp + 1))) = true ∧
        r = t + (i - m * (sp + 1))) := by
  intro fuel
  induction fuel with
  | zero => intro i k0 r hi; omega
  | succ fuel ih =>
    intro i k0 r hi
    unfold searchLoopFuel
    by_cases hk : heightOk k0 = false
    · rw [if_pos hk]
      constructor
      · intro h; exact absurd h (by simp)
      · rintro ⟨m, hm1, hm2, hm3, hm4, hm5⟩
        have h0 := hm2 0 (Nat.zero_le m)
        rw [Nat.add_zero] at h0
        rw [h0] at hk
        cases hk
    · rw [if_neg hk]
      have hktrue : heightOk k0 = true := by
        revert hk; cases heightOk k0 <;> simp
      by_cases hhit : hit (t + i) = true
      · rw [if_pos hhit]
        constructor
        · intro h
          injection h with h
          refine ⟨0, by simp, ?_, ?_, ?_, ?_⟩
          · intro j hj
            have hj0 : j = 0 := Nat.le_zero.mp hj
            subst hj0
            simpa using hktrue
          · intro j hj; exact absurd hj (Nat.not_lt_zero j)
          · simpa using hhit
          · rw [← h]; simp
        · rintro ⟨m, hm1, hm2, hm3, hm4, hm5⟩
          cases m with
          | zero =>
            rw [hm5]
            simp
          | succ m' =>
            have h0 := hm3 0 (Nat.succ_pos m')
            rw [Nat.zero_mul, Nat.sub_zero] at h0
            rw [h0] at hhit
            cases hhit
      · have hhitf : hit (t + i) = false := by
          revert hhit; cases hit (t + i) <;> simp
        rw [if_neg hhit]
        by_cases hlt : i < sp + 1
        · rw [if_pos hlt]
          constructor
          · intro h; exact absurd h (by simp)
          · rintro ⟨m, hm1, hm2, hm3, hm4, hm5⟩
            cases m with
            | zero =>
              rw [Nat.zero_mul, Nat.sub_zero] at hm4
              rw [hm4] at hhitf
              cases hhitf
            | succ m' =>
              have hge : sp + 1 ≤ (m' + 1) * (sp + 1) :=
                Nat.le_mul_of_pos_left _ (Nat.succ_pos m')
              omega
        · rw [if_neg hlt]
          rw [ih (i - (sp + 1)) (k0 + 1) r (by omega)]
          constructor
          · rintro ⟨m', h1, h2, h3, h4, h5⟩
            refine ⟨m' + 1, ?_, ?_, ?_, ?_, ?_⟩
            · have hsm : (m' + 1) * (sp + 1) = m' * (sp + 1) + (sp + 1) := by
                ring
              omega
            · intro j hj
              cases j with
              | zero => simpa using hktrue
              | succ j' =>
                have := h2 j' (by omega)
                rw [show k0 + (j' + 1) = k0 + 1 + j' from by omega]
                exact this
            · intro j hj
              cases j with
              | zero =>
                rw [Nat.zero_mul, Nat.sub_zero]
                exact hhitf
              | succ j' =>
                have := h3 j' (by omega)
                rw [show i - (j' + 1) * (sp + 1) = i - (sp + 1) - j' * (sp + 1)
                  from by
                    have hsm : (j' + 1) * (sp + 1) = j' * (sp + 1) + (sp + 1) := by
                      ring
                    omega]
                exact this
            · rw [show i - (m' + 1) * (sp + 1) = i - (sp + 1) - m' * (sp + 1)
                from by
                  have hsm : (m' + 1) * (sp + 1) = m' * (sp + 1) + (sp + 1) := by
                    ring
                  omega]
              exact h4
            · rw [h5,
                show i - (m' + 1) * (sp + 1) = i - (sp + 1) - m' * (sp + 1)
                  from by
                    have hsm : (m' + 1) * (sp + 1) = m' * (sp + 1) + (sp + 1) := by
                      ring
                    omega]
          · rintro ⟨m, hm1, hm2, hm3, hm4, hm5⟩
            cases m with
            | zero =>
              rw [Nat.zero_mul, Nat.sub_zero] at hm4
              rw [hm4] at hhitf
              cases hhitf
            | succ m' =>
              refine ⟨m', ?_, ?_, ?_, ?_, ?_⟩
              · have hsm : (m' + 1) * (sp + 1) = m' * (sp + 1) + (sp + 1) := by
                  ring
                omega
              · intro j hj
                have := hm2 (j + 1) (by omega)
                rw [show k0 + 1 + j = k0 + (j + 1) from by omega]
                exact this
              · intro j hj
                have := hm3 (j + 1) (by omega)
                rw [show i - (sp + 1) - j * (sp + 1) = i - (j + 1) * (sp + 1)
                  from by
                    have hsm : (j + 1) * (sp + 1) = j * (sp + 1) + (sp + 1) := by
                      ring
                    omega]
                exact this
              · rw [show i - (sp + 1) - m' * (sp + 1) = i - (m' + 1) * (sp + 1)
                  from by
                    have hsm : (m' + 1) * (sp + 1) = m' * (sp + 1) + (sp + 1) := by
                      ring
                    omega]
                exact hm4
              · rw [hm5,
                  show i - (sp + 1) - m' * (sp + 1) = i - (m' + 1) * (sp + 1)
                    from by
                      have hsm : (m' + 1) * (sp + 1) = m' * (sp + 1) + (sp + 1) := by
                        ring
                      omega]

/-- C6: in search mode, once the gates pass, the loop tries the offsets
`nHashDrift - k * iteration` for `k = 0, 1, ...` (that is, it iterates `i`
from `nHashDrift` down towards 0), where `iteration` is
`stake_timestamp_mask + 1` from `mandatory_upgrade_block[1]` on and 1
before; it succeeds with timestamp `time_tx + i` exactly at the first
offset whose stake hash hits while every iteration so far observed the
starting chain height, and it returns none (timestamp unmodified) when the
observed chain height changes before any hit. -/
theorem c6_search_iteration (H : StakeHashFn) (pn ph : Nat) (a : KernelArgs)
    (t d : Nat) (hOk : Nat → Bool) (m : Nat)
    (hmod : a.modifierOpt = some m)
    (htv : timeViolation a t = false)
    (hmv : minAgeViolation a t = false)
    (htr : targetRangeBad a = false)
    (hdrift : d &&& a.stakeTimestampMask = 0) :
    (∀ r, checkStakeKernelHashSearch H pn ph a t d hOk = some r ↔
      ∃ k, k * (if a.heightCurrent ≥ a.upgrade1 then a.stakeTimestampMask + 1
            else 1) ≤ d ∧
        (∀ j, j ≤ k → hOk j = true) ∧
        (∀ j, j < k → kernelHit H pn ph a m
          (t + (d - j * (if a.heightCurrent ≥ a.upgrade1 then
            a.stakeTimestampMask + 1 else 1))) = false) ∧
        kernelHit H pn ph a m
          (t + (d - k * (if a.heightCurrent ≥ a.upgrade1 then
            a.stakeTimestampMask + 1 else 1))) = true ∧
        r = t + (d - k * (if a.heightCurrent ≥ a.upgrade1 then
            a.stakeTimestampMask + 1 else 1))) ∧
    (∀ k, k * (if a.heightCurrent ≥ a.upgrade1 then a.stakeTimestampMask + 1
          else 1) ≤ d →
      hOk k = false →
      (∀ j, j < k → kernelHit H pn ph a m
        (t + (d - j * (if a.heightCurrent ≥ a.upgrade1 then
          a.stakeTimestampMask + 1 else 1))) = false) →
      checkStakeKernelHashSearch H pn ph a t d hOk = none) := by
  have hstep : (if a.heightCurrent ≥ a.upgrade1 then a.stakeTimestampMask
      else 0) + 1 =
      (if a.heightCurrent ≥ a.upgrade1 then a.stakeTimestampMask + 1 else 1) := by
    split <;> rfl
  have hsl : checkStakeKernelHashSearch H pn ph a t d hOk =
      searchLoopFuel (kernelHit H pn ph a m) hOk t
        (if a.heightCurrent ≥ a.upgrade1 then a.stakeTimestampMask else 0)
        (d + 1) d 0 := by
    unfold checkStakeKernelHashSearch
    rw [htv, hmv, htr, hmod, hdrift]
    rfl
  have hiff := searchLoopFuel_some_iff (kernelHit H pn ph a m) hOk t
    (if a.heightCurrent ≥ a.upgrade1 then a.stakeTimestampMask else 0)
    (d + 1) d 0
  constructor
  · intro r
    rw [hsl, hiff r (by omega), hstep]
    constructor
    · rintro ⟨k, h1, h2, h3, h4, h5⟩
      exact ⟨k, h1, fun j hj => by simpa using h2 j hj, h3, h4, h5⟩
    · rintro ⟨k, h1, h2, h3, h4, h5⟩
      exact ⟨k, h1, fun j hj => by simpa using h2 j hj, h3, h4, h5⟩
  · intro k hk hkf hmiss
    cases hres : checkStakeKernelHashSearch H pn ph a t d hOk with
    | none => rfl
    | some r =>
      rw [hsl] at hres
      rw [hiff r (by omega), hstep] at hres
      obtain ⟨k', h1, h2, h3, h4, h5⟩ := hres
      by_cases hkk : k' < k
      · have := hmiss k' hkk
        rw [this] at h4
        cases h4
      · have hk' := h2 k (by omega)
        rw [Nat.zero_add] at hk'
        rw [hk'] at hkf
        cases hkf

/-- Witness for C6: with an always-hitting hash and a steady chain height,
the search succeeds at the first offset, drift 3 from time 5 giving 8. -/
theorem c6_search_iteration_witness :
    checkStakeKernelHashSearch (fun _ _ _ _ _ => 0) 0 0
      ⟨0, 0, 0, 0, 0, 0, 0, 1, 0, 0, 0, 1, false, false, 1, some 0, false⟩
      5 3 (fun _ => true) = some 8 :=
  ((c6_search_iteration (fun _ _ _ _ _ => 0) 0 0
      ⟨0, 0, 0, 0, 0, 0, 0, 1, 0, 0, 0, 1, false, false, 1, some 0, false⟩
      5 3 (fun _ => true) 0 rfl (by decide) (by decide) (by decide)
      (by decide)).1 8).mpr
    ⟨0, by decide, fun j _ => rfl, fun j hj => absurd hj (Nat.not_lt_zero j),
      by decide, by decide⟩

/-- C7: whenever search mode succeeds with timestamp `r`, verify mode on
`r` with the same modifier, prevout, previous-block time, amount and
decoded target computes the same proof hash and passes, returning
`some (true, hash)`. -/
theorem c7_search_verify_roundtrip (H : StakeHashFn) (pn ph : Nat)
    (a : KernelArgs) (t d : Nat) (hOk : Nat → Bool) (r : Nat)
    (hsome : checkStakeKernelHashSearch H pn ph a t d hOk = some r) :
    ∃ m, a.modifierOpt = some m ∧
      checkStakeKernelHashVerify H pn ph a r =
        some (true, H m a.timeBlockFrom pn ph r) := by
  have htvf : timeViolation a t = false := by
    cases h : timeViolation a t
    · rfl
    · rw [checkSearch_none_of_reject H pn ph a t d hOk (Or.inl h)] at hsome
      cases hsome
  have hmvf : minAgeViolation a t = false := by
    cases h : minAgeViolation a t
    · rfl
    · rw [checkSearch_none_of_reject H pn ph a t d hOk
        (Or.inr (Or.inl h))] at hsome
      cases hsome
  have htrf : targetRangeBad a = false := by
    cases h : targetRangeBad a
    · rfl
    · rw [checkSearch_none_of_reject H pn ph a t d hOk
        (Or.inr (Or.inr h))] at hsome
      cases hsome
  cases hm : a.modifierOpt with
  | none =>
    have hnone : checkStakeKernelHashSearch H pn ph a t d hOk = none := by
      unfold checkStakeKernelHashSearch
      rw [htvf, if_neg (by decide), hmvf, if_neg (by decide), htrf,
        if_neg (by decide), hm]
    rw [hnone] at hsome
    cases hsome
  | some m =>
    by_cases hd : d &&& a.stakeTimestampMask = 0
    · have hsl : checkStakeKernelHashSearch H pn ph a t d hOk =
          searchLoopFuel (kernelHit H pn ph a m) hOk t
            (if a.heightCurrent ≥ a.upgrade1 then a.stakeTimestampMask else 0)
            (d + 1) d 0 := by
        unfold checkStakeKernelHashSearch
        rw [htvf, if_neg (by decide), hmvf, if_neg (by decide), htrf,
          if_neg (by decide), hm, hd]
        rfl
      rw [hsl] at hsome
      have hspec := searchLoopFuel_some_spec
        (kernelHit H pn ph a m) hOk t _ _ _ _ _ hsome
      obtain ⟨hhit, hler⟩ := hspec
      refine ⟨m, rfl, ?_⟩
      have h1 : timeViolation a r = false := by
        unfold timeViolation at htvf ⊢
        simp only [decide_eq_false_iff_not] at htvf ⊢
        omega
      have h2 : minAgeViolation a r = false := by
        unfold minAgeViolation at hmvf ⊢
        simp only [Bool.or_eq_false_iff, decide_eq_false_iff_not] at hmvf ⊢
        obtain ⟨ha, hb⟩ := hmvf
        refine ⟨?_, hb⟩
        omega
      unfold checkStakeKernelHashVerify
      rw [h1, if_neg (by decide), h2, if_neg (by decide), htrf,
        if_neg (by decide), hm]
      unfold kernelHit at hhit
      show some (stakeTargetHit (H m a.timeBlockFrom pn ph r) a.valueIn
          a.target (kernelNewWeight a) ||
          (decide (a.heightCurrent < a.upgrade0) && a.genesisBypass),
          H m a.timeBlockFrom pn ph r) =
        some (true, H m a.timeBlockFrom pn ph r)
      rw [hhit, Bool.true_or]
    · have hnone : checkStakeKernelHashSearch H pn ph a t d hOk = none := by
        unfold checkStakeKernelHashSearch
        rw [htvf, if_neg (by decide), hmvf, if_neg (by decide), htrf,
          if_neg (by decide), hm]
        exact if_pos hd
      rw [hnone] at hsome
      cases hsome

/-- Witness for C7 at the concrete search success of the C6 witness. -/
theorem c7_search_verify_roundtrip_witness :
    ∃ m, (⟨0, 0, 0, 0, 0, 0, 0, 1, 0, 0, 0, 1, false, false, 1, some 0,
        false⟩ : KernelArgs).modifierOpt = some m ∧
      checkStakeKernelHashVerify (fun _ _ _ _ _ => 0) 0 0
        ⟨0, 0, 0, 0, 0, 0, 0, 1, 0, 0, 0, 1, false, false, 1, some 0, false⟩
        8 = some (true, 0) :=
  c7_search_verify_roundtrip (fun _ _ _ _ _ => 0) 0 0
    ⟨0, 0, 0, 0, 0, 0, 0, 1, 0, 0, 0, 1, false, false, 1, some 0, false⟩
    5 3 (fun _ => true) 8 (by decide)

lemma selectBlockLoop_time (idx : List BIdx) (selHash : Nat → Nat → Nat)
    (prevMod : Nat) (stop : Int) (selected : List Nat) :
    ∀ (items : List (Nat × Nat)) (acc : Option (BIdx × Nat)) (b : BIdx),
    List.Sorted candLE items →
    (∀ it ∈ items, ∃ blk, lookupIdx idx it.2 = some blk ∧ blk.time = it.1 ∧
      blk.hashVal = it.2) →
    ((∃ bb bh, acc = some (bb, bh) ∧ (bb.time : Int) ≤ stop) ∨
     (acc = none ∧ ∃ it ∈ items, selected.contains it.2 = false ∧
       (it.1 : Int) ≤ stop)) →
    selectBlockLoop idx selHash prevMod stop selected items acc = some b →
    (b.time : Int) ≤ stop := by
  intro items
  induction items with
  | nil =>
    intro acc b _ _ hinv hres
    rcases hinv with ⟨bb, bh, hacc, hle⟩ | ⟨_, it, hit, _⟩
    · subst hacc
      unfold selectBlockLoop at hres
      simp only [Option.map] at hres
      injection hres with hres
      rw [← hres]
      exact hle
    · exact absurd hit (List.not_mem_nil it)
  | cons item rest ih =>
    intro acc b hsort hlook hinv hres
    obtain ⟨hall, hsort'⟩ := List.sorted_cons.mp hsort
    obtain ⟨blk0, hlk0, hbt0, hbh0⟩ := hlook item (List.mem_cons_self item rest)
    have hlook' : ∀ it ∈ rest, ∃ blk, lookupIdx idx it.2 = some blk ∧
        blk.time = it.1 ∧ blk.hashVal = it.2 :=
      fun it hit => hlook it (List.mem_cons_of_mem item hit)
    unfold selectBlockLoop at hres
    split at hres
    · exact absurd hres (by simp)
    · rename_i pindex heqlk
      rw [hlk0] at heqlk
      injection heqlk with heqlk
      subst heqlk
      split at hres
      · -- break: acc is some and pindex.time > stop
        rename_i hbrk
        rw [Bool.and_eq_true] at hbrk
        obtain ⟨hsome, _⟩ := hbrk
        rcases hinv with ⟨bb, bh, hacc, hle⟩ | ⟨hacc, _⟩
        · subst hacc
          simp only [Option.map] at hres
          injection hres with hres
          rw [← hres]
          exact hle
        · rw [hacc] at hsome
          cases hsome
      · rename_i hnbrk
        split at hres
        · -- already selected: skip
          rename_i hsel
          refine ih acc b hsort' hlook' ?_ hres
          rcases hinv with hL | ⟨hacc, it0, hit0, hnsel0, hle0⟩
          · exact Or.inl hL
          · refine Or.inr ⟨hacc, it0, ?_, hnsel0, hle0⟩
            rcases List.mem_cons.mp hit0 with heq0 | hmem0
            · exfalso
              rw [heq0] at hnsel0
              rw [hbh0] at hsel
              rw [hsel] at hnsel0
              cases hnsel0
            · exact hmem0
        · rename_i hnsel
          split at hres
          · -- acc substituted by none: pindex becomes the first candidate
            refine ih _ b hsort' hlook' ?_ hres
            refine Or.inl ⟨blk0, selHashOf selHash prevMod blk0, rfl, ?_⟩
            rcases hinv with ⟨bb, bh, hacc, _⟩ | ⟨_, it0, hit0, hnsel0, hle0⟩
            · cases hacc
            · rcases List.mem_cons.mp hit0 with heq0 | hmem0
              · rw [hbt0, ← heq0]
                exact hle0
              · have hcle := hall it0 hmem0
                have hle1 : item.1 ≤ it0.1 := by
                  unfold candLE at hcle
                  omega
                rw [hbt0]
                have h2 : (item.1 : Int) ≤ (it0.1 : Int) := by
                  exact_mod_cast hle1
                omega
          · -- acc substituted by some (bb, bh)
            rename_i bb bh
            have hbbtime : (bb.time : Int) ≤ stop := by
              rcases hinv with ⟨bb', bh', hacc', hle'⟩ | ⟨haccn, _⟩
              · injection hacc' with h2
                injection h2 with h3 h4
                rw [← h3] at hle'
                exact hle'
              · cases haccn
            have hptime : (blk0.time : Int) ≤ stop := by
              have hng : ¬((blk0.time : Int) > stop) := by
                intro hgt
                exact hnbrk (by simp [hgt])
              omega
            split at hres
            · exact ih _ b hsort' hlook'
                (Or.inl ⟨blk0, selHashOf selHash prevMod blk0, rfl, hptime⟩)
                hres
            · exact ih _ b hsort' hlook'
                (Or.inl ⟨bb, bh, rfl, hbbtime⟩) hres

lemma selectBlockLoop_min (idx : List BIdx) (selHash : Nat → Nat → Nat)
    (prevMod : Nat) (stop : Int) (selected : List Nat) :
    ∀ (items : List (Nat × Nat)) (acc : Option (BIdx × Nat)) (b : BIdx),
    List.Sorted candLE items →
    (∀ it ∈ items, ∃ blk, lookupIdx idx it.2 = some blk ∧ blk.time = it.1 ∧
      blk.hashVal = it.2) →
    (∀ bb bh, acc = some (bb, bh) → bh = selHashOf selHash prevMod bb) →
    selectBlockLoop idx selHash prevMod stop selected items acc = some b →
    (∀ bb bh, acc = some (bb, bh) → selHashOf selHash prevMod b ≤ bh) ∧
    (∀ it ∈ items, selected.contains it.2 = false → (it.1 : Int) ≤ stop →
      ∀ blk, lookupIdx idx it.2 = some blk →
        selHashOf selHash prevMod b ≤ selHashOf selHash prevMod blk) ∧
    ((∃ bb bh, acc = some (bb, bh) ∧ b = bb) ∨
     (∃ it, it ∈ items ∧ lookupIdx idx it.2 = some b ∧
       selected.contains it.2 = false)) := by
  intro items
  induction items with
  | nil =>
    intro acc b _ _ haccinv hres
    unfold selectBlockLoop at hres
    cases acc with
    | none => exact absurd hres (by simp)
    | some p =>
      simp only [Option.map] at hres
      injection hres with hres
      obtain ⟨bb, bh⟩ := p
      have hres2 : bb = b := hres
      have hbh := haccinv bb bh rfl
      refine ⟨?_, ?_, ?_⟩
      · intro bb' bh' hacc'
        injection hacc' with h2
        injection h2 with h3 h4
        rw [← h4, hbh, ← hres2]
      · intro it hit
        exact absurd hit (List.not_mem_nil it)
      · exact Or.inl ⟨bb, bh, rfl, hres2.symm⟩
  | cons item rest ih =>
    intro acc b hsort hlook haccinv hres
    obtain ⟨hall, hsort'⟩ := List.sorted_cons.mp hsort
    obtain ⟨blk0, hlk0, hbt0, hbh0⟩ := hlook item (List.mem_cons_self item rest)
    have hlook' : ∀ it ∈ rest, ∃ blk, lookupIdx idx it.2 = some blk ∧
        blk.time = it.1 ∧ blk.hashVal = it.2 :=
      fun it hit => hlook it (List.mem_cons_of_mem item hit)
    unfold selectBlockLoop at hres
    split at hres
    · exact absurd hres (by simp)
    · rename_i pindex heqlk
      rw [hlk0] at heqlk
      injection heqlk with heqlk
      subst heqlk
      split at hres
      · -- break: item time beyond stop, return current best
        rename_i hbrk
        rw [Bool.and_eq_true] at hbrk
        obtain ⟨hsome, hgt⟩ := hbrk
        simp only [decide_eq_true_eq] at hgt
        obtain ⟨⟨bb, bh⟩, hacc⟩ := Option.isSome_iff_exists.mp hsome
        subst hacc
        simp only [Option.map] at hres
        injection hres with hres
        have hres2 : bb = b := hres
        have hbh := haccinv bb bh rfl
        refine ⟨?_, ?_, Or.inl ⟨bb, bh, rfl, hres2.symm⟩⟩
        · intro bb' bh' hacc'
          injection hacc' with h2
          injection h2 with h3 h4
          rw [← h4, hbh, ← hres2]
        · intro it hit hnsel hle blk hblk
          exfalso
          rcases List.mem_cons.mp hit with heq0 | hmem0
          · rw [hbt0, ← heq0] at hgt
            omega
          · have hcle := hall it hmem0
            have hle1 : item.1 ≤ it.1 := by
              unfold candLE at hcle
              omega
            have h2 : (item.1 : Int) ≤ (it.1 : Int) := by exact_mod_cast hle1
            rw [hbt0] at hgt
            omega
      · rename_i hnbrk
        split at hres
        · -- already selected: skip, recurse on same acc
          rename_i hsel
          obtain ⟨ih1, ih2, ih3⟩ := ih acc b hsort' hlook' haccinv hres
          refine ⟨ih1, ?_, ?_⟩
          · intro it hit hnsel hle blk hblk
            rcases List.mem_cons.mp hit with heq0 | hmem0
            · exfalso
              rw [heq0] at hnsel
              rw [hbh0] at hsel
              rw [hsel] at hnsel
              cases hnsel
            · exact ih2 it hmem0 hnsel hle blk hblk
          · rcases ih3 with hL | ⟨it, hmem, hfnd, hns⟩
            · exact Or.inl hL
            · exact Or.inr ⟨it, List.mem_cons_of_mem item hmem, hfnd, hns⟩
        · rename_i hnsel
          have hnselb : selected.contains item.2 = false := by
            rw [← hbh0]
            revert hnsel
            cases selected.contains blk0.hashVal <;> simp
          split at hres
          · -- acc substituted by none
            obtain ⟨ih1, ih2, ih3⟩ := ih _ b hsort' hlook'
              (by
                intro bb bh hacc'
                injection hacc' with h2
                injection h2 with h3 h4
                rw [← h3, ← h4]) hres
            have hble : selHashOf selHash prevMod b ≤
                selHashOf selHash prevMod blk0 :=
              ih1 blk0 (selHashOf selHash prevMod blk0) rfl
            refine ⟨?_, ?_, ?_⟩
            · intro bb bh hacc'
              cases hacc'
            · intro it hit hnsel' hle blk hblk
              rcases List.mem_cons.mp hit with heq0 | hmem0
              · have : blk = blk0 := by
                  rw [← heq0] at hlk0
                  rw [hlk0] at hblk
                  injection hblk with h5
                  exact h5.symm
                rw [this]
                exact hble
              · exact ih2 it hmem0 hnsel' hle blk hblk
            · rcases ih3 with ⟨bb, bh, hacc', hb⟩ | ⟨it, hmem, hfnd, hns⟩
              · injection hacc' with h2
                injection h2 with h3 h4
                exact Or.inr ⟨item, List.mem_cons_self item rest,
                  by rw [hlk0, hb, h3], hnselb⟩
              · exact Or.inr ⟨it, List.mem_cons_of_mem item hmem, hfnd, hns⟩
          · -- acc substituted by some (bb, bh)
            rename_i bb bh
            have hbh := haccinv bb bh rfl
            split at hres
            · -- new best: (blk0, its hash)
              rename_i hlt
              obtain ⟨ih1, ih2, ih3⟩ := ih _ b hsort' hlook'
                (by
                  intro bb' bh' hacc'
                  injection hacc' with h2
                  injection h2 with h3 h4
                  rw [← h3, ← h4]) hres
              have hble : selHashOf selHash prevMod b ≤
                  selHashOf selHash prevMod blk0 :=
                ih1 blk0 (selHashOf selHash prevMod blk0) rfl
              refine ⟨?_, ?_, ?_⟩
              · intro bb' bh' hacc'
                injection hacc' with h2
                injection h2 with h3 h4
                rw [← h4]
                exact le_trans hble (le_of_lt hlt)
              · intro it hit hnsel' hle blk hblk
                rcases List.mem_cons.mp hit with heq0 | hmem0
                · have : blk = blk0 := by
                    rw [← heq0] at hlk0
                    rw [hlk0] at hblk
                    injection hblk with h5
                    exact h5.symm
                  rw [this]
                  exact hble
                · exact ih2 it hmem0 hnsel' hle blk hblk
              · rcases ih3 with ⟨bb', bh', hacc', hb⟩ | ⟨it, hmem, hfnd, hns⟩
                · injection hacc' with h2
                  injection h2 with h3 h4
                  exact Or.inr ⟨item, List.mem_cons_self item rest,
                    by rw [hlk0, hb, h3], hnselb⟩
                · exact Or.inr ⟨it, List.mem_cons_of_mem item hmem, hfnd, hns⟩
            · -- keep previous best
              rename_i hnlt
              have hge : bh ≤ selHashOf selHash prevMod blk0 := by omega
              obtain ⟨ih1, ih2, ih3⟩ := ih _ b hsort' hlook'
                (by
                  intro bb' bh' hacc'
                  injection hacc' with h2
                  injection h2 with h3 h4
                  rw [← h3, ← h4]
                  exact hbh) hres
              have hble : selHashOf selHash prevMod b ≤ bh :=
                ih1 bb bh rfl
              refine ⟨?_, ?_, ?_⟩
              · intro bb' bh' hacc'
                injection hacc' with h2
                injection h2 with h3 h4
                rw [← h4]
                exact hble
              · intro it hit hnsel' hle blk hblk
                rcases List.mem_cons.mp hit with heq0 | hmem0
                · have : blk = blk0 := by
                    rw [← heq0] at hlk0
                    rw [hlk0] at hblk
                    injection hblk with h5
                    exact h5.symm
                  rw [this]
                  exact le_trans hble hge
                · exact ih2 it hmem0 hnsel' hle blk hblk
              · rcases ih3 with ⟨bb', bh', hacc', hb⟩ | ⟨it, hmem, hfnd, hns⟩
                · injection hacc' with h2
                  injection h2 with h3 h4
                  exact Or.inl ⟨bb, bh, rfl, by rw [hb, h3]⟩
                · exact Or.inr ⟨it, List.mem_cons_of_mem item hmem, hfnd, hns⟩

/-- C5, counterexample: the first not-yet-selected candidate is always
admitted, even beyond the stop: with a single candidate of time 100 and
stop 50 the loop still selects it, so the chosen block can have block time
greater than the round's stop value, contradicting the claim. -/
theorem c5_select_counterexample :
    selectBlockFromCandidates [⟨5, 100, 7, 0, true, 0, false⟩] (fun _ _ => 0)
        [(100, 7)] [] 50 0 = some ⟨5, 100, 7, 0, true, 0, false⟩ ∧
    ((⟨5, 100, 7, 0, true, 0, false⟩ : BIdx).time : Int) > 50 :=
  ⟨by decide, by decide⟩

/-- C5, amended: provided some not-yet-selected candidate has block time at
most the round's stop (equivalently, the first unselected candidate in the
sorted order does), the block chosen by `SelectBlockFromCandidates` has
block time at most the stop, is not yet selected, comes from the candidate
vector, and has the smallest selection hash among the not-yet-selected
candidates with block time at most the stop (ties keep the first-seen
candidate); without such a candidate the code still selects the earliest
unselected candidate even though its time exceeds the stop. -/
theorem c5_select_smallest (idx : List BIdx) (selHash : Nat → Nat → Nat)
    (sorted : List (Nat × Nat)) (selected : List Nat) (stop : Int)
    (prevMod : Nat) (b : BIdx)
    (hsort : List.Sorted candLE sorted)
    (hlook : ∀ it ∈ sorted, ∃ blk, lookupIdx idx it.2 = some blk ∧
      blk.time = it.1 ∧ blk.hashVal = it.2)
    (hex : ∃ it ∈ sorted, selected.contains it.2 = false ∧ (it.1 : Int) ≤ stop)
    (hres : selectBlockFromCandidates idx selHash sorted selected stop prevMod =
      some b) :
    (b.time : Int) ≤ stop ∧
    selected.contains b.hashVal = false ∧
    (∃ it ∈ sorted, lookupIdx idx it.2 = some b) ∧
    (∀ it ∈ sorted, selected.contains it.2 = false → (it.1 : Int) ≤ stop →
      ∀ blk, lookupIdx idx it.2 = some blk →
        selHashOf selHash prevMod b ≤ selHashOf selHash prevMod blk) := by
  unfold selectBlockFromCandidates at hres
  have htime := selectBlockLoop_time idx selHash prevMod stop selected sorted
    none b hsort hlook (Or.inr ⟨rfl, hex⟩) hres
  obtain ⟨hmin1, hmin2, hmin3⟩ := selectBlockLoop_min idx selHash prevMod stop
    selected sorted none b hsort hlook (by intro bb bh h; cases h) hres
  rcases hmin3 with ⟨bb, bh, habs, _⟩ | ⟨it, hmem, hfnd, hns⟩
  · cases habs
  · obtain ⟨blk, hlk, hbt, hbh⟩ := hlook it hmem
    have hbeq : blk = b := by
      rw [hlk] at hfnd
      injection hfnd
    subst hbeq
    refine ⟨htime, ?_, ⟨it, hmem, hfnd⟩, hmin2⟩
    rw [hbh]
    exact hns

/-- Witness for C5 on a one-candidate vector whose time is within the stop. -/
theorem c5_select_smallest_witness :
    ((⟨5, 100, 7, 0, true, 0, false⟩ : BIdx).time : Int) ≤ 150 ∧
    ([] : List Nat).contains
      (⟨5, 100, 7, 0, true, 0, false⟩ : BIdx).hashVal = false ∧
    (∃ it ∈ [((100 : Nat), (7 : Nat))],
      lookupIdx [⟨5, 100, 7, 0, true, 0, false⟩] it.2 =
        some ⟨5, 100, 7, 0, true, 0, false⟩) ∧
    (∀ it ∈ [((100 : Nat), (7 : Nat))],
      ([] : List Nat).contains it.2 = false → (it.1 : Int) ≤ 150 →
      ∀ blk, lookupIdx [⟨5, 100, 7, 0, true, 0, false⟩] it.2 = some blk →
        selHashOf (fun _ _ => 0) 0 ⟨5, 100, 7, 0, true, 0, false⟩ ≤
          selHashOf (fun _ _ => 0) 0 blk) :=
  c5_select_smallest [⟨5, 100, 7, 0, true, 0, false⟩] (fun _ _ => 0)
    [(100, 7)] [] 150 0 ⟨5, 100, 7, 0, true, 0, false⟩
    (List.sorted_singleton _)
    (by
      intro it hit
      rw [List.mem_singleton] at hit
      subst hit
      exact ⟨⟨5, 100, 7, 0, true, 0, false⟩, rfl, rfl, rfl⟩)
    ⟨(100, 7), List.mem_singleton.mpr rfl, by decide, by decide⟩
    (by decide)
